import Mathlib

/-!
# LipIndex: formal model of the package index core

A shallow embedding of the LipIndex repository: the canonical `Package`
data model, the Redis-backed search executor's query construction
(`RedisClient.search`), the per-ecosystem fetchers (`LeviLaminaFetcher`,
`EndstonePythonFetcher`), the normalizer, and the read-API route handler.
Network reads are modelled as explicit oracle inputs; JavaScript strings
are modelled through their character lists.  Definitions come first,
followed by the theorems about them.
-/

/-! ## Definitions -/

/-- `Contributor` record: `{ username, contributions }`. -/
structure Contributor where
  username : String
  contributions : Nat
deriving DecidableEq, Repr

/-- `Version` record. `platformVersionRequirement` is optional: the
LeviLamina fetcher always sets it, the Endstone fetcher never does. -/
structure Version where
  version : String
  releasedAt : String
  source : String
  packageManager : String
  platformVersionRequirement : Option String
deriving DecidableEq, Repr

/-- Canonical `Package` record as indexed in Redis. -/
structure Package where
  identifier : String
  name : String
  description : String
  author : String
  tags : List String
  avatarUrl : String
  projectUrl : String
  hotness : Nat
  updated : String
  contributors : List Contributor
  versions : List Version
deriving DecidableEq, Repr

/-- JavaScript `String.prototype.split(sep)` for a single-character
separator, modelled on character lists: the (possibly empty) chunks
between occurrences of `sep`, exactly as JS `split` returns them (so
`" a".split(' ')` gives `["", "a"]`). -/
def splitChar (sep : Char) : List Char → List (List Char)
  | [] => [[]]
  | c :: cs =>
    if c = sep then [] :: splitChar sep cs
    else
      match splitChar sep cs with
      | [] => [[c]]
      | g :: gs => (c :: g) :: gs

/-- Joining the chunks back with the separator recovers the input. -/
def joinSep (sep : Char) : List (List Char) → List Char
  | [] => []
  | [g] => g
  | g :: gs => g ++ sep :: joinSep sep gs

/-- `replaceAll('*', ' ')`, one character at a time. -/
def starToSpace (c : Char) : Char := if c = '*' then ' ' else c

/-- `q.replaceAll('*', ' ').split(' ').filter(item => item.length > 0)`. -/
def tokenize (q : String) : List String :=
  ((splitChar ' ' (q.data.map starToSpace)).filter
    (fun g => 0 < g.length)).map (fun g => String.mk g)

/-- `item.startsWith('+')`. -/
def startsWithPlus (t : String) : Bool :=
  match t.data with
  | '+' :: _ => true
  | _ => false

/-- `item.slice(1)`. -/
def sliceOne (t : String) : String := String.mk (t.data.drop 1)

/-- `exactQList`: tokens prefixed with `+`, prefix stripped. -/
def requiredTokens (q : String) : List String :=
  ((tokenize q).filter (fun t => startsWithPlus t)).map sliceOne

/-- `optionalQList`: all tokens not prefixed with `+`. -/
def optionalTokens (q : String) : List String :=
  (tokenize q).filter (fun t => !startsWithPlus t)

/-- A character of the class `[a-z0-9-]`. -/
def isTagChar (c : Char) : Bool := c.isLower || c.isDigit || c = '-'

/-- The test `/^[a-z0-9-]+:[a-z0-9-]+$/.test(qItem)`: the token consists
of a nonempty `[a-z0-9-]` run, a colon, and a nonempty `[a-z0-9-]` run.
Since `:` is not in the class, this is exactly: splitting on `:` yields
two chunks, both nonempty and drawn from the class. -/
def isTagQualified (s : String) : Bool :=
  match splitChar ':' s.data with
  | [k, v] => 0 < k.length && 0 < v.length && k.all isTagChar && v.all isTagChar
  | _ => false

/-- Case-insensitive unanchored substring test, the semantics the spec
assigns to a redis-om `matches`/`contains` call with a `*term*` pattern
(the matching itself happens inside Redis, outside this repository). -/
def lcContains (hay needle : String) : Bool :=
  (List.range (hay.data.length + 1)).any
    (fun i => (needle.data.map Char.toLower).isPrefixOf
      ((hay.data.map Char.toLower).drop i))

/-- Searchable text fields of the `package` schema. -/
inductive QField where
  | name
  | description
  | author
deriving DecidableEq, Repr

def fieldGet : QField → Package → String
  | .name, p => p.name
  | .description, p => p.description
  | .author, p => p.author

/-- Predicate tree built by the redis-om query-builder calls in
`RedisClient.search`: `and`/`or` combinators over the leaf conditions
`.or('tags').contains(qItem)` (literal tag containment),
`.or(field).matches(pattern)` and `.or('tags').contains(pattern)`
with `pattern = `*qItem*``. -/
inductive QNode where
  | all
  | and (a b : QNode)
  | or (a b : QNode)
  | fieldMatch (f : QField) (tok : String)
  | tagsContainLit (tok : String)
  | tagsContainSub (tok : String)
deriving DecidableEq, Repr

/-- Evaluation of the predicate tree against one `Package`. -/
def evalQ : QNode → Package → Bool
  | .all, _ => true
  | .and a b, p => evalQ a p && evalQ b p
  | .or a b, p => evalQ a p || evalQ b p
  | .fieldMatch f tok, p => lcContains (fieldGet f p) tok
  | .tagsContainLit tok, p => p.tags.contains tok
  | .tagsContainSub tok, p => p.tags.any (fun t => lcContains t tok)

/-- The sub-query built for one token: a tag-qualified token compiles to
literal tag containment, any other token to the 4-way `or` over `name`,
`description`, `author` and tag substring containment. -/
def tokenQuery (tok : String) : QNode :=
  if isTagQualified tok then
    QNode.tagsContainLit tok
  else
    QNode.or
      (QNode.or
        (QNode.or (QNode.fieldMatch QField.name tok)
          (QNode.fieldMatch QField.description tok))
        (QNode.fieldMatch QField.author tok))
      (QNode.tagsContainSub tok)

/-- The whole predicate tree built by `RedisClient.search` for query
string `q`: match-all when `q.length <= 1`; otherwise the required
tokens are `and`-chained onto the base query and, only when the
optional-token list is nonempty, a single `or`-group over the optional
tokens is `and`-ed on. -/
def buildQuery (q : String) : QNode :=
  if 1 < q.length then
    let req := requiredTokens q
    let opt := optionalTokens q
    let base := req.foldl (fun acc tok => QNode.and acc (tokenQuery tok)) QNode.all
    if 0 < opt.length then
      QNode.and base
        (match opt with
         | [] => QNode.all
         | t :: ts => ts.foldl (fun acc tok => QNode.or acc (tokenQuery tok)) (tokenQuery t))
    else
      base
  else
    QNode.all

/-- The count of all records satisfying the predicate
(`await query.count()`). -/
def matchCount (records : List Package) (q : String) : Nat :=
  (records.filter (fun p => evalQ (buildQuery q) p)).length

/-- `RedisClient.search`: filter, `offset = (page - 1) * perPage`,
`pageCount = Math.ceil(count / perPage)`, and
`.return.page(offset, perPage)`. -/
def search (records : List Package) (q : String) (perPage page : Nat) :
    List Package × Nat :=
  let matched := records.filter (fun p => evalQ (buildQuery q) p)
  let offset := (page - 1) * perPage
  let pageCount := (matched.length + perPage - 1) / perPage
  ((matched.drop offset).take perPage, pageCount)

/-- The tag-qualifier pattern `/^[a-z0-9-]+:[a-z0-9-]+$/` spelled out:
a nonempty run of `[a-z0-9-]` characters, a colon, and another nonempty
run of `[a-z0-9-]` characters. -/
def tagPattern (s : String) : Prop :=
  ∃ k v : List Char, s.data = k ++ ':' :: v ∧ k ≠ [] ∧ v ≠ [] ∧
    (∀ c ∈ k, isTagChar c = true) ∧ (∀ c ∈ v, isTagChar c = true)

/-- JavaScript `String.prototype.trim()` (whitespace stripped from both
ends), used only to state claims that speak about the trimmed query. -/
def jsTrim (s : String) : String :=
  String.mk (((s.data.dropWhile (fun c => c.isWhitespace)).reverse.dropWhile
    (fun c => c.isWhitespace)).reverse)

/-- A package with blank text fields and no tags; no nonempty token can
match it. -/
def blankPackage : Package :=
  { identifier := "", name := "", description := "", author := "", tags := [],
    avatarUrl := "", projectUrl := "", hotness := 0, updated := "",
    contributors := [], versions := [] }

/-- Keep the first `Version` per literal `version` string. -/
def dedupVersions : List Version → List String → List Version
  | [], _ => []
  | v :: vs, seen =>
    if seen.contains v.version then dedupVersions vs seen
    else v :: dedupVersions vs (v.version :: seen)

/-- Lexicographic comparison of character lists (ISO-8601 timestamps
compare chronologically this way). -/
def ltChars : List Char → List Char → Bool
  | [], [] => false
  | [], _ :: _ => true
  | _ :: _, [] => false
  | a :: as, b :: bs => if a < b then true else if b < a then false else ltChars as bs

def insertByReleasedDesc (v : Version) : List Version → List Version
  | [] => [v]
  | w :: ws =>
    if ltChars w.releasedAt.data v.releasedAt.data then v :: w :: ws
    else w :: insertByReleasedDesc v ws

/-- Insertion sort, descending by `releasedAt`. -/
def sortVersionsDesc : List Version → List Version
  | [] => []
  | v :: vs => insertByReleasedDesc v (sortVersionsDesc vs)

/-- Keep the first occurrence of each tag. -/
def dedupTags : List String → List String → List String
  | [], _ => []
  | t :: ts, seen =>
    if seen.contains t then dedupTags ts seen
    else t :: dedupTags ts (t :: seen)

/-- Modelled from the spec: `normalizePackage` (in `package.js`, not
among the provided sources).  Per spec §4.2 it deduplicates `versions`
by version string (first occurrence wins), sorts them descending by
`releasedAt`, sets `updated` to the first sorted version's
`releasedAt`, deduplicates `tags` preserving first-seen order, and
passes every other field through unchanged. -/
def normalizePackage (p : Package) : Package :=
  let vs := sortVersionsDesc (dedupVersions p.versions [])
  { p with
      versions := vs,
      updated := match vs with | [] => p.updated | v :: _ => v.releasedAt,
      tags := dedupTags p.tags [] }

structure RepoId where
  owner : String
  repo : String
deriving DecidableEq, Repr

/-- GitHub repository metadata used by the fetchers. -/
structure Repository where
  topics : Option (List String)
  stargazers_count : Nat
  owner_login : String
deriving DecidableEq, Repr

/-- One element of the GitHub contributor listing. -/
structure GHContributor where
  login : Option String
  contributions : Nat
deriving DecidableEq, Repr

structure ToothInfo where
  name : String
  description : String
  tags : List String
  avatar_url : Option String
deriving DecidableEq, Repr

/-- A parsed `tooth.json`.  The two `Option String` fields hold the
values of `dependencies['github.com/LiteLDev/LeviLamina']` and
`prerequisites['github.com/LiteLDev/LeviLamina']` (absent map or absent
key collapse to `none`). -/
structure Tooth where
  info : ToothInfo
  leviLaminaDep : Option String
  leviLaminaPrereq : Option String
deriving DecidableEq, Repr

/-- A goproxy `@v/<tag>.info` response: `{ Version, Time }`. -/
structure GoProxyInfo where
  goVersion : String
  time : String
deriving DecidableEq, Repr

/-- `goproxyVersionStr.replace(/^v/, '')`: strip one leading `v`. -/
def stripLeadingV (s : String) : String :=
  match s.data with
  | 'v' :: rest => String.mk rest
  | _ => s

/-- `.replace(/\+incompatible/g, '')` scans left to right, removing
each occurrence of `+incompatible` (13 characters) without rescanning
the removed text.  Structural recursion over a fuel argument (the fuel
is the input length, which bounds the number of steps). -/
def removeIncompatibleAux : Nat → List Char → List Char
  | 0, _ => []
  | _ + 1, [] => []
  | n + 1, c :: cs =>
    if ("+incompatible".data).isPrefixOf (c :: cs) then
      removeIncompatibleAux n (cs.drop 12)
    else c :: removeIncompatibleAux n cs

def removeIncompatible (l : List Char) : List Char :=
  removeIncompatibleAux l.length l

/-- `goproxyVersionStr.replace(/^v/, '').replace(/\+incompatible/g, '')`. -/
def stripVersionStr (s : String) : String :=
  String.mk (removeIncompatible (stripLeadingV s).data)

/-- `text.split('\n').map(line => line.trim()).filter(line => line.length > 0)`
applied to the goproxy `@v/list` body. -/
def goproxyTagList (text : String) : List String :=
  (((splitChar '\n' text.data).map (fun l => jsTrim (String.mk l))).filter
    (fun s => 0 < s.length))

/-- `LeviLaminaFetcher.fetchVersions`: for each goproxy tag, the
per-version sub-fetches (goproxy `.info` and `tooth.json` at the tag)
are an oracle `resolve`; a thrown error (`Except.error`) or a missing
piece (`none`) drops the version, never the whole list.  `toIso`
stands for `new Date(...).toISOString()`. -/
def fetchVersions (toIso : String → String)
    (resolve : String → Except Unit (Option GoProxyInfo × Option Tooth)) :
    List String → List Version
  | [] => []
  | g :: rest =>
    let tail := fetchVersions toIso resolve rest
    match resolve g with
    | Except.error _ => tail
    | Except.ok (gp, th) =>
      match gp, th with
      | some gpInfo, some tooth =>
        { version := stripVersionStr g,
          releasedAt := toIso gpInfo.time,
          source := "github",
          packageManager := "lip",
          platformVersionRequirement :=
            some ((tooth.leviLaminaDep.orElse
              (fun _ => tooth.leviLaminaPrereq)).getD "") } :: tail
      | _, _ => tail

/-- Everything the network returns for one LeviLamina candidate. -/
structure LeviCandidate where
  repo : RepoId
  repository : Repository
  contributors : List GHContributor
  toothHead : Option Tooth
  goproxyText : String
  resolveVersion : String → Except Unit (Option GoProxyInfo × Option Tooth)

/-- `LeviLaminaFetcher.fetchPackage`: `null` when the `tooth.json`
manifest is absent or the derived version list is empty; otherwise the
normalized package record.  `avatar` stands for the avatar-URL fixup
(relative-path resolution and `blob` URL rewriting), which no claim
depends on. -/
def leviFetchPackage (toIso : String → String)
    (avatar : RepoId → Option String → String) (c : LeviCandidate) :
    Option Package :=
  match c.toothHead with
  | none => none
  | some tooth =>
    let versions := fetchVersions toIso c.resolveVersion (goproxyTagList c.goproxyText)
    if versions.length = 0 then none
    else
      some (normalizePackage
        { identifier := "github.com/" ++ c.repo.owner ++ "/" ++ c.repo.repo,
          name := tooth.info.name,
          description := tooth.info.description,
          author := c.repo.owner,
          tags := "platform:levilamina" ::
            (tooth.info.tags ++ c.repository.topics.getD []),
          avatarUrl := avatar c.repo tooth.info.avatar_url,
          projectUrl := "https://github.com/" ++ c.repo.owner ++ "/" ++ c.repo.repo,
          hotness := c.repository.stargazers_count,
          updated := "",
          contributors := c.contributors.map
            (fun g => { username := g.login.getD "",
                        contributions := g.contributions }),
          versions := versions })

/-- `LeviLaminaFetcher.fetch`: the discovery stream.  Each element is
either a resolved candidate or `Except.error` standing for a thrown
per-candidate failure, which the loop catches, logs and skips.  The
LeviLamina platform repository itself is skipped before resolution. -/
def leviFetch (toIso : String → String)
    (avatar : RepoId → Option String → String) :
    List (Except Unit LeviCandidate) → List Package
  | [] => []
  | w :: rest =>
    let tail := leviFetch toIso avatar rest
    match w with
    | Except.error _ => tail
    | Except.ok c =>
      if c.repo.owner = "LiteLDev" && c.repo.repo = "LeviLamina" then tail
      else
        match leviFetchPackage toIso avatar c with
        | none => tail
        | some p => p :: tail

/-- A GitHub release: `{ tag_name, published_at, created_at }`. -/
structure GHRelease where
  tag_name : String
  published_at : Option String
  created_at : String
deriving DecidableEq, Repr

structure PypiRelease where
  upload_time_iso_8601 : String
deriving DecidableEq, Repr

/-- PyPI package metadata: `releases` is a version-string-keyed object,
modelled as an association list in key order. -/
structure PypiMetadata where
  releases : List (String × List PypiRelease)
deriving DecidableEq, Repr

/-- The `[project]` table of `pyproject.toml`. -/
structure PyprojectProject where
  name : String
  description : Option String
  keywords : Option (List String)
deriving DecidableEq, Repr

/-- Everything the network returns for one Endstone candidate. -/
structure EndstoneCandidate where
  repo : RepoId
  repository : Repository
  contributors : List GHContributor
  releases : List GHRelease
  pyproject : PyprojectProject
  pypi : Option PypiMetadata
deriving DecidableEq, Repr

/-- The PyPI-derived versions: keys whose release-file list is
nonempty, each keyed string used verbatim as the version. -/
def pypiVersions (m : PypiMetadata) : List Version :=
  (m.releases.filter (fun kv => 0 < kv.2.length)).map (fun kv =>
    { version := kv.1,
      releasedAt := match kv.2 with
        | [] => ""
        | r :: _ => r.upload_time_iso_8601,
      source := "pypi", packageManager := "pip",
      platformVersionRequirement := none })

/-- The combined version list of `EndstonePythonFetcher.fetchPackage`:
GitHub release tag names verbatim, then the PyPI versions when PyPI
metadata was found. -/
def endstoneVersions (toIso : String → String) (c : EndstoneCandidate) :
    List Version :=
  (c.releases.map (fun r =>
    { version := r.tag_name,
      releasedAt := toIso (r.published_at.getD r.created_at),
      source := "github", packageManager := "pip",
      platformVersionRequirement := none }))
  ++ (match c.pypi with
      | none => []
      | some m => pypiVersions m)

/-- `EndstonePythonFetcher.fetchPackage`: `null` when the combined
version list is empty; otherwise the normalized package record. -/
def endstoneFetchPackage (toIso : String → String) (c : EndstoneCandidate) :
    Option Package :=
  let versions := endstoneVersions toIso c
  if versions.length = 0 then none
  else
    some (normalizePackage
      { identifier := "github.com/" ++ c.repo.owner ++ "/" ++ c.repo.repo,
        name := c.pyproject.name,
        description := c.pyproject.description.getD "",
        author := c.repository.owner_login,
        tags := "platform:endstone" :: "type:mod" ::
          (c.pyproject.keywords.getD [] ++ c.repository.topics.getD []),
        avatarUrl := "https://avatars.githubusercontent.com/" ++ c.repo.owner,
        projectUrl := "https://github.com/" ++ c.repo.owner ++ "/" ++ c.repo.repo,
        hotness := c.repository.stargazers_count,
        updated := "",
        contributors := c.contributors.map
          (fun g => { username := g.login.getD "",
                      contributions := g.contributions }),
        versions := versions })

/-- `EndstonePythonFetcher.fetch`: the discovery loop with the same
per-candidate try/catch (but no skip rule). -/
def endstoneFetch (toIso : String → String) :
    List (Except Unit EndstoneCandidate) → List Package
  | [] => []
  | w :: rest =>
    let tail := endstoneFetch toIso rest
    match w with
    | Except.error _ => tail
    | Except.ok c =>
      match endstoneFetchPackage toIso c with
      | none => tail
      | some p => p :: tail

def toothW : Tooth :=
  { info := { name := "Example Tooth", description := "demo",
              tags := ["type:mod"], avatar_url := none },
    leviLaminaDep := some ">=0.9.0", leviLaminaPrereq := none }

def lcW : LeviCandidate :=
  { repo := { owner := "octo", repo := "example-tooth" },
    repository := { topics := some ["minecraft"], stargazers_count := 3,
                    owner_login := "octo" },
    contributors := [{ login := some "octo", contributions := 5 }],
    toothHead := some toothW,
    goproxyText := "v1.0.0\n",
    resolveVersion := fun g =>
      Except.ok (some { goVersion := g, time := "2024-01-02T00:00:00Z" },
        some toothW) }

def lcNoTooth : LeviCandidate := { lcW with toothHead := none }

def lcLevi : LeviCandidate :=
  { lcW with repo := { owner := "LiteLDev", repo := "LeviLamina" } }

def pkgLW : Package :=
  (leviFetchPackage (fun s => s) (fun _ _ => "") lcW).getD blankPackage

/-- An Endstone candidate whose only GitHub release is tagged `v1.0.0`. -/
def endstoneCandV : EndstoneCandidate :=
  { repo := { owner := "octo", repo := "plugin" },
    repository := { topics := none, stargazers_count := 0, owner_login := "octo" },
    contributors := [],
    releases := [{ tag_name := "v1.0.0", published_at := none,
                   created_at := "2024-01-01T00:00:00Z" }],
    pyproject := { name := "plugin", description := none, keywords := none },
    pypi := none }

def pkgEW : Package :=
  (endstoneFetchPackage (fun s => s) endstoneCandV).getD blankPackage

/-- The class `[a-zA-Z0-9-]` (owner capture group). -/
def isOwnerChar (c : Char) : Bool := c.isAlpha || c.isDigit || c = '-'

/-- The class `[a-zA-Z0-9-_.]` (repo capture group). -/
def isRepoChar (c : Char) : Bool :=
  c.isAlpha || c.isDigit || c = '-' || c = '_' || c = '.'

/-- JavaScript regex `.` outside a class matches any character except
the four line terminators. -/
def isLineTerm (c : Char) : Bool :=
  c = '\n' || c = '\r' || c.val = 0x2028 || c.val = 0x2029

/-- The `/<owner>/<repo>` tail shared by the code's regular expression
and the spec's identifier format: since neither capture class contains
`/`, the tail must split on `/` into exactly two nonempty chunks drawn
from the respective classes. -/
def toothPathTail (rest : List Char) : Option (String × String) :=
  match splitChar '/' rest with
  | [o, r] =>
    if 0 < o.length && o.all isOwnerChar && 0 < r.length && r.all isRepoChar
    then some (String.mk o, String.mk r)
    else none
  | _ => none

/-- `TOOTH_PATH_REGEXP.exec`: the pattern is
`/^github.com\/(?<owner>[a-zA-Z0-9-]+)\/(?<repo>[a-zA-Z0-9-_.]+)$/`.
The dot after `github` is unescaped, so it matches any single
non-line-terminator character, not only `'.'`. -/
def toothPathMatch (s : String) : Option (String × String) :=
  match s.data with
  | 'g' :: 'i' :: 't' :: 'h' :: 'u' :: 'b' :: d :: 'c' :: 'o' :: 'm' :: '/' :: rest =>
    if isLineTerm d then none else toothPathTail rest
  | _ => none

/-- The tooth-path format as the spec words it: the literal prefix
`github.com/` (11 characters, dot included) followed by
`<owner>/<repo>`. -/
def toothPathSpecFormat (s : String) : Bool :=
  ("github.com/".data).isPrefixOf s.data && (toothPathTail (s.data.drop 11)).isSome

/-- A parsed `tooth.json` as exposed by `ToothMetadata` getters. -/
structure ToothMeta where
  toothPath : String
  version : String
  name : String
  description : String
  author : String
  tags : List String
  dependencies : List (String × String)
deriving DecidableEq, Repr

/-- An upstream failure: an HTTP-status-coded error (passed through to
the client) or an unexpected error (mapped to 500). -/
inductive UpErr where
  | http (status : Nat) (message : String)
  | internal
deriving DecidableEq, Repr

/-- The upstream world one request sees: the `tooth.json` fetch result,
the README oracle (`none` key = the default `README.md`, `some lang` =
`README.<lang>.md`; a `none` value = a non-ok response), and the
version-list fetch result. -/
structure ReadWorld where
  toothMeta : Except UpErr ToothMeta
  readmeFor : Option String → Option String
  versionList : Except UpErr (List String)

/-- One request: route params plus the parsed `Accept-Language` codes
in client preference order (before deduplication). -/
structure ReadRequest where
  tooth : String
  version : String
  languageCodes : List String

structure SuccessBody where
  tooth : String
  version : String
  name : String
  description : String
  author : String
  available_versions : List String
  readme : Option String
  tags : List String
  dependencies : List (String × String)
deriving DecidableEq, Repr

inductive HttpReply where
  | errorReply (code : Nat) (message : String)
  | dataReply (body : SuccessBody)
deriving DecidableEq, Repr

/-- First non-`none` element, else `none`. -/
def firstSome : List (Option String) → Option String
  | [] => none
  | some s :: _ => some s
  | none :: rest => firstSome rest

/-- `fetchReadme`: try `README.<lang>.md` for every accepted language
in order, then the default `README.md`; return the first non-null
content, or null when all fetches failed. -/
def fetchReadme (readmeFor : Option String → Option String)
    (langList : List String) : Option String :=
  firstSome ((langList.map (fun lang => readmeFor (some lang)))
    ++ [readmeFor none])

/-- The route handler.  Returns the reply and whether the upstream
`Promise.all` fetches were started.  The two validations run before
any fetch; `isValidVersionStr` stands for `isValidVersionString` from
`lib/version.js`, which is not among the provided sources.  A
`Promise.all` rejection surfaces the first rejecting promise; the
model deterministically checks the metadata fetch before the
version-list fetch (the claims only concern the success and the
validation paths). -/
def readHandler (isValidVersionStr : String → Bool) (w : ReadWorld)
    (req : ReadRequest) : HttpReply × Bool :=
  match toothPathMatch req.tooth with
  | none => (HttpReply.errorReply 400 "Invalid parameter - tooth.", false)
  | some _ownerRepo =>
    if isValidVersionStr req.version then
      let langs := dedupTags req.languageCodes []
      match w.toothMeta with
      | Except.error (UpErr.http s m) => (HttpReply.errorReply s m, true)
      | Except.error UpErr.internal =>
        (HttpReply.errorReply 500 "Internal server error.", true)
      | Except.ok t =>
        match w.versionList with
        | Except.error (UpErr.http s m) => (HttpReply.errorReply s m, true)
        | Except.error UpErr.internal =>
          (HttpReply.errorReply 500 "Internal server error.", true)
        | Except.ok vs =>
          (HttpReply.dataReply
            { tooth := t.toothPath, version := t.version, name := t.name,
              description := t.description, author := t.author,
              available_versions := vs,
              readme := fetchReadme w.readmeFor langs,
              tags := t.tags, dependencies := t.dependencies }, true)
    else
      (HttpReply.errorReply 400 "Invalid parameter - version.", false)

/-- A world where every upstream fetch would succeed. -/
def goodWorld : ReadWorld :=
  { toothMeta := Except.ok
      { toothPath := "github.com/octo/lib", version := "1.0.0", name := "lib",
        description := "", author := "octo", tags := [], dependencies := [] },
    readmeFor := fun _ => none,
    versionList := Except.ok ["1.0.0"] }

def reqOddHost : ReadRequest :=
  { tooth := "githubXcom/octo/lib", version := "1.0.0", languageCodes := [] }

/-- C10 witness: two accepted languages (with a duplicate) and a world
serving only the default README. -/
def readmeWorld : ReadWorld :=
  { toothMeta := Except.ok
      { toothPath := "github.com/octo/lib", version := "1.0.0", name := "lib",
        description := "", author := "octo", tags := [], dependencies := [] },
    readmeFor := fun lang =>
      match lang with
      | none => some "default readme"
      | some _ => none,
    versionList := Except.ok ["1.0.0"] }

def readmeReq : ReadRequest :=
  { tooth := "github.com/octo/lib", version := "1.0.0",
    languageCodes := ["en", "zh", "en"] }

/-! ## Theorems -/

theorem splitChar_ne_nil (sep : Char) (l : List Char) : splitChar sep l ≠ [] := by
  cases l with
  | nil => simp [splitChar]
  | cons c cs =>
    simp only [splitChar]
    by_cases h : c = sep
    · simp [h]
    · simp only [if_neg h]
      cases hs : splitChar sep cs <;> simp

theorem joinSep_splitChar (sep : Char) (l : List Char) :
    joinSep sep (splitChar sep l) = l := by
  induction l with
  | nil => simp [splitChar, joinSep]
  | cons c cs ih =>
    simp only [splitChar]
    by_cases h : c = sep
    · simp only [if_pos h]
      rcases hs : splitChar sep cs with _ | ⟨g, gs⟩
      · exact absurd hs (splitChar_ne_nil sep cs)
      · rw [hs] at ih
        simp [joinSep, ih, h]
    · simp only [if_neg h]
      rcases hs : splitChar sep cs with _ | ⟨g, gs⟩
      · exact absurd hs (splitChar_ne_nil sep cs)
      · rw [hs] at ih
        cases gs with
        | nil => simpa [joinSep] using ih
        | cons g' gs' => simpa [joinSep] using ih

/-- No chunk produced by `splitChar` contains the separator. -/
theorem splitChar_not_mem (sep : Char) (l : List Char) :
    ∀ g ∈ splitChar sep l, sep ∉ g := by
  induction l with
  | nil => simp [splitChar]
  | cons c cs ih =>
    simp only [splitChar]
    by_cases h : c = sep
    · simp only [if_pos h]
      intro g hg
      rcases List.mem_cons.mp hg with hg | hg
      · simp [hg]
      · exact ih g hg
    · simp only [if_neg h]
      rcases hs : splitChar sep cs with _ | ⟨g, gs⟩
      · exact absurd hs (splitChar_ne_nil sep cs)
      · intro g' hg'
        rcases List.mem_cons.mp hg' with hg' | hg'
        · subst hg'
          intro hmem
          rcases List.mem_cons.mp hmem with hmem | hmem
          · exact h hmem.symm
          · exact ih g (by simp [hs]) hmem
        · exact ih g' (by rw [hs]; exact List.mem_cons_of_mem _ hg')

/-- Splitting on a separator that does not occur yields one chunk. -/
theorem splitChar_of_not_mem (sep : Char) (l : List Char) (h : sep ∉ l) :
    splitChar sep l = [l] := by
  induction l with
  | nil => simp [splitChar]
  | cons c cs ih =>
    have hc : c ≠ sep := fun hc => h (by simp [hc])
    have hcs : sep ∉ cs := fun hm => h (by simp [hm])
    simp only [splitChar, if_neg hc, ih hcs]

/-- Splitting `k ++ sep :: v` where `k` is separator-free peels off `k`. -/
theorem splitChar_append (sep : Char) (k v : List Char) (h : sep ∉ k) :
    splitChar sep (k ++ sep :: v) = k :: splitChar sep v := by
  induction k with
  | nil => simp [splitChar]
  | cons c k' ih =>
    have hc : c ≠ sep := fun hc => h (by simp [hc])
    have hk' : sep ∉ k' := fun hm => h (by simp [hm])
    have h2 := ih hk'
    simp only [List.cons_append, splitChar, if_neg hc, List.append_eq]
    rw [h2]

/-- The number of nonempty chunks never exceeds the input length. -/
theorem splitChar_filter_length_le (sep : Char) (l : List Char) :
    ((splitChar sep l).filter (fun g => 0 < g.length)).length ≤ l.length := by
  induction l with
  | nil => simp [splitChar]
  | cons c cs ih =>
    simp only [splitChar]
    by_cases h : c = sep
    · simp only [if_pos h, List.filter]
      simpa using Nat.le_succ_of_le ih
    · simp only [if_neg h]
      rcases hs : splitChar sep cs with _ | ⟨g, gs⟩
      · exact absurd hs (splitChar_ne_nil sep cs)
      · rw [hs] at ih
        have hgs : (gs.filter (fun g => 0 < g.length)).length ≤
            ((g :: gs).filter (fun g => 0 < g.length)).length := by
          simp only [List.filter]
          cases hg : decide (0 < g.length) <;> simp [Nat.le_succ_of_le]
        simp only [List.filter, List.length_cons]
        have : (gs.filter (fun g => 0 < g.length)).length ≤ cs.length :=
          le_trans hgs ih
        simpa using Nat.succ_le_succ this

/-- Uniqueness of the split around a single separator occurrence. -/
theorem append_sep_inj (sep : Char) (x u y v : List Char)
    (hx : sep ∉ x) (hu : sep ∉ u) (h : x ++ sep :: y = u ++ sep :: v) :
    x = u ∧ y = v := by
  induction x generalizing u with
  | nil =>
    cases u with
    | nil => simpa using h
    | cons d u' =>
      simp only [List.nil_append, List.cons_append, List.cons.injEq] at h
      exact absurd h.1.symm (fun hd => hu (by simp [hd]))
  | cons c x' ih =>
    cases u with
    | nil =>
      simp only [List.cons_append, List.nil_append, List.cons.injEq] at h
      exact absurd h.1 (fun hc => hx (by simp [hc]))
    | cons d u' =>
      simp only [List.cons_append, List.cons.injEq] at h
      have hx' : sep ∉ x' := fun hm => hx (by simp [hm])
      have hu' : sep ∉ u' := fun hm => hu (by simp [hm])
      obtain ⟨h1, h2⟩ := ih u' hx' hu' h.2
      exact ⟨by simp [h.1, h1], h2⟩

theorem listIsPrefixOf_iff (l₁ l₂ : List Char) :
    l₁.isPrefixOf l₂ = true ↔ l₁ <+: l₂ := by
  induction l₁ generalizing l₂ with
  | nil => simp [List.isPrefixOf]
  | cons a as ih =>
    cases l₂ with
    | nil => simp [List.isPrefixOf]
    | cons b bs => simp [List.isPrefixOf, ih, List.cons_prefix_cons]

/-- `lcContains` is exactly case-insensitive unanchored substring
containment. -/
theorem lcContains_iff (hay needle : String) :
    lcContains hay needle = true ↔
      (needle.data.map Char.toLower) <:+: (hay.data.map Char.toLower) := by
  unfold lcContains
  rw [List.any_eq_true]
  constructor
  · rintro ⟨i, _, hpf⟩
    rw [listIsPrefixOf_iff] at hpf
    rcases hpf with ⟨t, ht⟩
    refine ⟨(hay.data.map Char.toLower).take i, t, ?_⟩
    conv_rhs => rw [← List.take_append_drop i (hay.data.map Char.toLower), ← ht]
    rw [List.append_assoc]
  · rintro ⟨pre, post, hsplit⟩
    refine ⟨pre.length, ?_, ?_⟩
    · rw [List.mem_range]
      have h5 : (pre ++ needle.data.map Char.toLower ++ post).length
          = (hay.data.map Char.toLower).length := by rw [hsplit]
      simp only [List.length_append, List.length_map] at h5
      omega
    · rw [listIsPrefixOf_iff]
      refine ⟨post, ?_⟩
      rw [← hsplit, List.append_assoc, List.drop_left]

/-- Folding `and` over tokens evaluates to the conjunction of the base
query and all token sub-queries. -/
theorem evalQ_foldl_and (ts : List String) (base : QNode) (p : Package) :
    evalQ (ts.foldl (fun acc tok => QNode.and acc (tokenQuery tok)) base) p
      = (evalQ base p && ts.all (fun t => evalQ (tokenQuery t) p)) := by
  induction ts generalizing base with
  | nil => simp
  | cons t ts ih =>
    rw [List.foldl_cons, ih]
    simp [evalQ, Bool.and_assoc]

/-- Folding `or` over tokens evaluates to the disjunction of the base
query and any token sub-query. -/
theorem evalQ_foldl_or (ts : List String) (base : QNode) (p : Package) :
    evalQ (ts.foldl (fun acc tok => QNode.or acc (tokenQuery tok)) base) p
      = (evalQ base p || ts.any (fun t => evalQ (tokenQuery t) p)) := by
  induction ts generalizing base with
  | nil => simp
  | cons t ts ih =>
    rw [List.foldl_cons, ih]
    simp [evalQ, Bool.or_assoc]

theorem tokenize_length_le (q : String) : (tokenize q).length ≤ q.length := by
  have h1 : (tokenize q).length
      = ((splitChar ' ' (q.data.map starToSpace)).filter
          (fun g => 0 < g.length)).length := by
    simp [tokenize]
  have h2 := splitChar_filter_length_le ' ' (q.data.map starToSpace)
  have h3 : (q.data.map starToSpace).length = q.data.length := by simp
  have h4 : q.length = q.data.length := rfl
  omega

theorem isTagChar_colon : isTagChar ':' = false := by decide

theorem isTagQualified_iff (s : String) :
    isTagQualified s = true ↔ tagPattern s := by
  constructor
  · intro h
    unfold isTagQualified at h
    rcases hsp : splitChar ':' s.data with _ | ⟨k, rest⟩
    · rw [hsp] at h; simp at h
    · rcases rest with _ | ⟨v, rest2⟩
      · rw [hsp] at h; simp at h
      · rcases rest2 with _ | ⟨w, rest3⟩
        · rw [hsp] at h
          simp only [Bool.and_eq_true, decide_eq_true_eq] at h
          obtain ⟨⟨⟨hk, hv⟩, hka⟩, hva⟩ := h
          have hjoin := joinSep_splitChar ':' s.data
          rw [hsp] at hjoin
          simp only [joinSep] at hjoin
          refine ⟨k, v, hjoin.symm, ?_, ?_, ?_, ?_⟩
          · intro hnil; rw [hnil] at hk; simp at hk
          · intro hnil; rw [hnil] at hv; simp at hv
          · exact List.all_eq_true.mp hka
          · exact List.all_eq_true.mp hva
        · rw [hsp] at h; simp at h
  · rintro ⟨k, v, heq, hk, hv, hka, hva⟩
    have hknc : ':' ∉ k := fun hm => by
      have := hka ':' hm
      rw [isTagChar_colon] at this
      exact Bool.false_ne_true this
    have hvnc : ':' ∉ v := fun hm => by
      have := hva ':' hm
      rw [isTagChar_colon] at this
      exact Bool.false_ne_true this
    have hsp : splitChar ':' s.data = [k, v] := by
      rw [heq, splitChar_append ':' k v hknc, splitChar_of_not_mem ':' v hvnc]
    unfold isTagQualified
    rw [hsp]
    simp only [Bool.and_eq_true, decide_eq_true_eq]
    refine ⟨⟨⟨?_, ?_⟩, List.all_eq_true.mpr hka⟩, List.all_eq_true.mpr hva⟩
    · cases k with
      | nil => exact absurd rfl hk
      | cons a as => simp
    · cases v with
      | nil => exact absurd rfl hv
      | cons a as => simp

/-- C1: for a query with more than one significant token the built
predicate is (AND of required-token predicates) AND (OR of
optional-token predicates), the OR group being omitted entirely when
the optional-token list is empty. -/
theorem search_query_and_or_structure (q : String) (p : Package)
    (h : 1 < (tokenize q).length) :
    (evalQ (buildQuery q) p
      = ((requiredTokens q).all (fun t => evalQ (tokenQuery t) p)
          && ((optionalTokens q).isEmpty
              || (optionalTokens q).any (fun t => evalQ (tokenQuery t) p))))
    ∧ (optionalTokens q = [] →
        buildQuery q = (requiredTokens q).foldl
          (fun acc tok => QNode.and acc (tokenQuery tok)) QNode.all) := by
  have hq : 1 < q.length := lt_of_lt_of_le h (tokenize_length_le q)
  constructor
  · rw [buildQuery, if_pos hq]
    by_cases hopt : 0 < (optionalTokens q).length
    · rw [if_pos hopt]
      rcases hol : optionalTokens q with _ | ⟨t, ts⟩
      · rw [hol] at hopt; simp at hopt
      · simp only [evalQ, evalQ_foldl_and, evalQ_foldl_or, Bool.true_and]
        have : (t :: ts).isEmpty = false := rfl
        rw [this]
        simp [List.any_cons, Bool.or_assoc]
    · rw [if_neg hopt]
      have hol : optionalTokens q = [] := by
        cases hc : optionalTokens q with
        | nil => rfl
        | cons t ts => rw [hc] at hopt; simp at hopt
      rw [evalQ_foldl_and, hol]
      simp [evalQ]
  · intro hol
    rw [buildQuery, if_pos hq, hol]
    simp

/-- C1 witness: a two-token query. -/
theorem search_query_and_or_structure_witness :
    (1 < (tokenize "foo +type:mod").length)
    ∧ (evalQ (buildQuery "foo +type:mod") blankPackage
        = ((requiredTokens "foo +type:mod").all
            (fun t => evalQ (tokenQuery t) blankPackage)
          && ((optionalTokens "foo +type:mod").isEmpty
              || (optionalTokens "foo +type:mod").any
                  (fun t => evalQ (tokenQuery t) blankPackage)))) :=
  ⟨by decide,
   (search_query_and_or_structure "foo +type:mod" blankPackage (by decide)).1⟩

/-- C2 counterexample: the query `" a"` has trimmed length 1 yet builds
a filtering predicate that `blankPackage` fails, because the code tests
the raw, untrimmed `q.length`. -/
theorem match_all_trimmed_counterexample :
    (jsTrim " a").length ≤ 1 ∧ evalQ (buildQuery " a") blankPackage = false := by
  decide

/-- C2 amended: when the raw query string has length at most 1, the
predicate is match-all and every package satisfies it. -/
theorem match_all_raw_short_query (q : String) (p : Package)
    (h : q.length ≤ 1) :
    buildQuery q = QNode.all ∧ evalQ (buildQuery q) p = true := by
  have hq : ¬ 1 < q.length := by omega
  constructor
  · rw [buildQuery, if_neg hq]
  · rw [buildQuery, if_neg hq]; rfl

/-- C2 witness: the one-character query `"a"`. -/
theorem match_all_raw_short_query_witness :
    buildQuery "a" = QNode.all ∧ evalQ (buildQuery "a") blankPackage = true :=
  match_all_raw_short_query "a" blankPackage (by decide)

/-- C3: a token compiles to literal tag containment exactly when it
matches the `key:value` tag pattern; any other token compiles to the
case-insensitive substring disjunction over `name`, `description`,
`author` and tag substring containment. -/
theorem token_compilation (tok : String) (p : Package) :
    ((tokenQuery tok = QNode.tagsContainLit tok) ↔ tagPattern tok)
    ∧ (tagPattern tok → evalQ (tokenQuery tok) p = p.tags.contains tok)
    ∧ (¬ tagPattern tok →
        evalQ (tokenQuery tok) p
          = (lcContains p.name tok || lcContains p.description tok
              || lcContains p.author tok
              || p.tags.any (fun t => lcContains t tok))) := by
  refine ⟨⟨?_, ?_⟩, ?_, ?_⟩
  · intro heq
    by_cases htq : isTagQualified tok = true
    · exact (isTagQualified_iff tok).mp htq
    · rw [tokenQuery, if_neg htq] at heq
      exact absurd heq (by simp)
  · intro hpat
    rw [tokenQuery, if_pos ((isTagQualified_iff tok).mpr hpat)]
  · intro hpat
    rw [tokenQuery, if_pos ((isTagQualified_iff tok).mpr hpat)]
    rfl
  · intro hpat
    have htq : ¬ isTagQualified tok = true :=
      fun h => hpat ((isTagQualified_iff tok).mp h)
    rw [tokenQuery, if_neg htq]
    simp [evalQ, fieldGet, Bool.or_assoc]

/-- C3 witness: the tag-qualified token `platform:levilamina` and the
free-text token `stone`. -/
theorem token_compilation_witness :
    (tokenQuery "platform:levilamina"
        = QNode.tagsContainLit "platform:levilamina")
    ∧ (evalQ (tokenQuery "stone") blankPackage
        = (lcContains blankPackage.name "stone"
            || lcContains blankPackage.description "stone"
            || lcContains blankPackage.author "stone"
            || blankPackage.tags.any (fun t => lcContains t "stone"))) :=
  ⟨(token_compilation "platform:levilamina" blankPackage).1.mpr
      ⟨"platform".data, "levilamina".data, by decide, by decide, by decide,
        by decide, by decide⟩,
   (token_compilation "stone" blankPackage).2.2
      (fun hpat => by
        have := (isTagQualified_iff "stone").mpr hpat
        exact absurd this (by decide))⟩

/-- C4: the returned page starts at offset `(page - 1) * perPage`, and
the returned page count is `ceil(matchCount / perPage)` computed from
the full match count, independent of the requested page. -/
theorem search_pagination (records : List Package) (q : String)
    (perPage page : Nat) (hper : 1 ≤ perPage) (_hpage : 1 ≤ page) :
    ((search records q perPage page).1
      = ((records.filter (fun p => evalQ (buildQuery q) p)).drop
          ((page - 1) * perPage)).take perPage)
    ∧ ((search records q perPage page).2
        = (matchCount records q + perPage - 1) / perPage)
    ∧ ((search records q perPage page).2 = (search records q perPage 1).2)
    ∧ (matchCount records q ≤ (search records q perPage page).2 * perPage)
    ∧ ((search records q perPage page).2 * perPage
        < matchCount records q + perPage) := by
  have hsnd : (search records q perPage page).2
      = (matchCount records q + perPage - 1) / perPage := rfl
  refine ⟨rfl, hsnd, rfl, ?_, ?_⟩
  · rw [hsnd]
    set n := matchCount records q with hn
    have h1 : n + perPage - 1 < ((n + perPage - 1) / perPage + 1) * perPage :=
      (Nat.div_lt_iff_lt_mul hper).mp (Nat.lt_succ_self _)
    have h2 : ((n + perPage - 1) / perPage + 1) * perPage
        = ((n + perPage - 1) / perPage) * perPage + perPage := by ring
    omega
  · rw [hsnd]
    set n := matchCount records q with hn
    have h3 : ((n + perPage - 1) / perPage) * perPage ≤ n + perPage - 1 :=
      Nat.div_mul_le_self _ _
    omega

/-- C4 witness: three matching records, two per page, page 2. -/
theorem search_pagination_witness :
    ((search [blankPackage, blankPackage, blankPackage] "" 2 2).1
      = (([blankPackage, blankPackage, blankPackage].filter
          (fun p => evalQ (buildQuery "") p)).drop ((2 - 1) * 2)).take 2)
    ∧ ((search [blankPackage, blankPackage, blankPackage] "" 2 2).2
        = (matchCount [blankPackage, blankPackage, blankPackage] "" + 2 - 1) / 2)
    ∧ ((search [blankPackage, blankPackage, blankPackage] "" 2 2).2
        = (search [blankPackage, blankPackage, blankPackage] "" 2 1).2)
    ∧ (matchCount [blankPackage, blankPackage, blankPackage] ""
        ≤ (search [blankPackage, blankPackage, blankPackage] "" 2 2).2 * 2)
    ∧ ((search [blankPackage, blankPackage, blankPackage] "" 2 2).2 * 2
        < matchCount [blankPackage, blankPackage, blankPackage] "" + 2) :=
  search_pagination [blankPackage, blankPackage, blankPackage] "" 2 2
    (by decide) (by decide)

theorem stringDataInj (s t : String) (h : s.data = t.data) : s = t := by
  cases s; cases t; exact congrArg String.mk h

theorem normalizePackage_identifier (p : Package) :
    (normalizePackage p).identifier = p.identifier := rfl

theorem insertByReleasedDesc_ne_nil (v : Version) (l : List Version) :
    insertByReleasedDesc v l ≠ [] := by
  cases l with
  | nil => simp [insertByReleasedDesc]
  | cons w ws =>
    simp only [insertByReleasedDesc]
    by_cases h : ltChars w.releasedAt.data v.releasedAt.data = true
    · simp [h]
    · simp [h]

theorem insertByReleasedDesc_mem (v w : Version) (l : List Version)
    (h : v ∈ insertByReleasedDesc w l) : v = w ∨ v ∈ l := by
  induction l with
  | nil => simpa [insertByReleasedDesc] using h
  | cons x xs ih =>
    simp only [insertByReleasedDesc] at h
    by_cases hc : ltChars x.releasedAt.data w.releasedAt.data = true
    · rw [if_pos hc] at h
      rcases List.mem_cons.mp h with h | h
      · exact Or.inl h
      · exact Or.inr h
    · rw [if_neg hc] at h
      rcases List.mem_cons.mp h with h | h
      · exact Or.inr (by simp [h])
      · rcases ih h with h | h
        · exact Or.inl h
        · exact Or.inr (List.mem_cons_of_mem _ h)

theorem sortVersionsDesc_ne_nil (l : List Version) (h : l ≠ []) :
    sortVersionsDesc l ≠ [] := by
  cases l with
  | nil => exact absurd rfl h
  | cons v vs => exact insertByReleasedDesc_ne_nil v (sortVersionsDesc vs)

theorem sortVersionsDesc_mem (v : Version) (l : List Version)
    (h : v ∈ sortVersionsDesc l) : v ∈ l := by
  induction l with
  | nil => simp [sortVersionsDesc] at h
  | cons x xs ih =>
    simp only [sortVersionsDesc] at h
    rcases insertByReleasedDesc_mem v x (sortVersionsDesc xs) h with h | h
    · simp [h]
    · exact List.mem_cons_of_mem _ (ih h)

theorem dedupVersions_ne_nil (v : Version) (vs : List Version) :
    dedupVersions (v :: vs) [] ≠ [] := by
  simp [dedupVersions]

theorem dedupVersions_mem (v : Version) (vs : List Version) (seen : List String)
    (h : v ∈ dedupVersions vs seen) : v ∈ vs := by
  induction vs generalizing seen with
  | nil => simp [dedupVersions] at h
  | cons x xs ih =>
    simp only [dedupVersions] at h
    by_cases hc : seen.contains x.version = true
    · rw [if_pos hc] at h
      exact List.mem_cons_of_mem _ (ih _ h)
    · rw [if_neg hc] at h
      rcases List.mem_cons.mp h with h | h
      · simp [h]
      · exact List.mem_cons_of_mem _ (ih _ h)

/-- The normalizer only reorders and drops versions, never invents one. -/
theorem normalizePackage_versions_subset (p : Package) (v : Version)
    (h : v ∈ (normalizePackage p).versions) : v ∈ p.versions := by
  simp only [normalizePackage] at h
  exact dedupVersions_mem v p.versions [] (sortVersionsDesc_mem v _ h)

/-- The normalizer keeps a nonempty version list nonempty. -/
theorem normalizePackage_versions_ne_nil (p : Package) (h : p.versions ≠ []) :
    (normalizePackage p).versions ≠ [] := by
  simp only [normalizePackage]
  cases hv : p.versions with
  | nil => exact absurd hv h
  | cons v vs =>
    cases hd : dedupVersions (v :: vs) [] with
    | nil => exact absurd hd (dedupVersions_ne_nil v vs)
    | cons w ws =>
      exact sortVersionsDesc_ne_nil _ (by simp)

/-- Every version emitted by `fetchVersions` carries the stripped form
of one of the goproxy tags. -/
theorem fetchVersions_mem (toIso : String → String)
    (resolve : String → Except Unit (Option GoProxyInfo × Option Tooth))
    (tags : List String) (v : Version)
    (h : v ∈ fetchVersions toIso resolve tags) :
    ∃ g ∈ tags, v.version = stripVersionStr g := by
  induction tags with
  | nil => simp [fetchVersions] at h
  | cons g rest ih =>
    simp only [fetchVersions] at h
    have weaken : (∃ g' ∈ rest, v.version = stripVersionStr g') →
        ∃ g' ∈ g :: rest, v.version = stripVersionStr g' := by
      rintro ⟨g', hg', hv⟩
      exact ⟨g', List.mem_cons_of_mem _ hg', hv⟩
    rcases hr : resolve g with e | ⟨gp, th⟩
    · rw [hr] at h
      exact weaken (ih h)
    · rw [hr] at h
      rcases gp with _ | gpInfo
      · exact weaken (ih (by simpa using h))
      · rcases th with _ | tooth
        · exact weaken (ih (by simpa using h))
        · rcases List.mem_cons.mp (by simpa using h) with h | h
          · exact ⟨g, List.mem_cons_self g rest, by rw [h]⟩
          · exact weaken (ih h)

/-- Every version assembled by the Endstone fetcher is a GitHub release
tag name or a PyPI release key, used verbatim. -/
theorem endstoneVersions_mem (toIso : String → String) (c : EndstoneCandidate)
    (v : Version) (h : v ∈ endstoneVersions toIso c) :
    (∃ r ∈ c.releases, v.version = r.tag_name)
    ∨ (∃ m, c.pypi = some m ∧ ∃ kv ∈ m.releases, v.version = kv.1) := by
  simp only [endstoneVersions] at h
  rcases List.mem_append.mp h with h | h
  · rcases List.mem_map.mp h with ⟨r, hr, hv⟩
    exact Or.inl ⟨r, hr, by rw [← hv]⟩
  · rcases hp : c.pypi with _ | m
    · rw [hp] at h; simp at h
    · rw [hp] at h
      rcases List.mem_map.mp h with ⟨kv, hkv, hv⟩
      exact Or.inr ⟨m, rfl, ⟨kv, (List.mem_filter.mp hkv).1, by rw [← hv]⟩⟩

/-- C5 counterexample: the Endstone fetcher copies the GitHub release
tag name `v1.0.0` verbatim into the emitted version string, which
therefore keeps its leading `v`. -/
theorem version_format_counterexample :
    (endstoneFetchPackage (fun s => s) endstoneCandV).map
        (fun p => p.versions.map (fun v => v.version)) = some ["v1.0.0"]
    ∧ "v1.0.0".data.head? = some 'v' := by decide

/-- C5 amended: the LeviLamina fetcher emits goproxy tags with one
leading `v` and all `+incompatible` occurrences removed, while the
Endstone fetcher emits GitHub release tag names and PyPI release keys
verbatim (so a leading `v` can survive). -/
theorem fetcher_version_strings (toIso : String → String)
    (avatar : RepoId → Option String → String)
    (lc : LeviCandidate) (lp : Package)
    (ec : EndstoneCandidate) (ep : Package)
    (hl : leviFetchPackage toIso avatar lc = some lp)
    (he : endstoneFetchPackage toIso ec = some ep) :
    (∀ v ∈ lp.versions, ∃ g ∈ goproxyTagList lc.goproxyText,
        v.version = stripVersionStr g)
    ∧ (∀ v ∈ ep.versions,
        (∃ r ∈ ec.releases, v.version = r.tag_name)
        ∨ (∃ m, ec.pypi = some m ∧ ∃ kv ∈ m.releases, v.version = kv.1)) := by
  constructor
  · intro v hv
    simp only [leviFetchPackage] at hl
    cases ht : lc.toothHead with
    | none => rw [ht] at hl; exact absurd hl (by simp)
    | some tooth =>
      rw [ht] at hl
      simp only at hl
      by_cases hlen : (fetchVersions toIso lc.resolveVersion
          (goproxyTagList lc.goproxyText)).length = 0
      · rw [if_pos hlen] at hl; exact absurd hl (by simp)
      · rw [if_neg hlen] at hl
        have hp := Option.some.inj hl
        rw [← hp] at hv
        have hvmem := normalizePackage_versions_subset _ v hv
        exact fetchVersions_mem toIso lc.resolveVersion _ v hvmem
  · intro v hv
    simp only [endstoneFetchPackage] at he
    by_cases hlen : (endstoneVersions toIso ec).length = 0
    · rw [if_pos hlen] at he; exact absurd he (by simp)
    · rw [if_neg hlen] at he
      have hp := Option.some.inj he
      rw [← hp] at hv
      have hvmem := normalizePackage_versions_subset _ v hv
      exact endstoneVersions_mem toIso ec v hvmem

/-- C5 amended witness: the concrete candidates. -/
theorem fetcher_version_strings_witness :
    (∀ v ∈ pkgLW.versions, ∃ g ∈ goproxyTagList lcW.goproxyText,
        v.version = stripVersionStr g)
    ∧ (∀ v ∈ pkgEW.versions,
        (∃ r ∈ endstoneCandV.releases, v.version = r.tag_name)
        ∨ (∃ m, endstoneCandV.pypi = some m
            ∧ ∃ kv ∈ m.releases, v.version = kv.1)) :=
  fetcher_version_strings (fun s => s) (fun _ _ => "") lcW pkgLW
    endstoneCandV pkgEW rfl rfl

/-- C6: an absent manifest or an empty derived version list resolves
the candidate to `none`, and consequently every emitted package has a
nonempty version list. -/
theorem absent_candidate_rules (toIso : String → String)
    (avatar : RepoId → Option String → String)
    (lc : LeviCandidate) (ec : EndstoneCandidate) :
    (lc.toothHead = none → leviFetchPackage toIso avatar lc = none)
    ∧ (fetchVersions toIso lc.resolveVersion (goproxyTagList lc.goproxyText) = []
        → leviFetchPackage toIso avatar lc = none)
    ∧ (endstoneVersions toIso ec = [] → endstoneFetchPackage toIso ec = none)
    ∧ (∀ p, leviFetchPackage toIso avatar lc = some p → p.versions ≠ [])
    ∧ (∀ p, endstoneFetchPackage toIso ec = some p → p.versions ≠ []) := by
  refine ⟨?_, ?_, ?_, ?_, ?_⟩
  · intro h; simp [leviFetchPackage, h]
  · intro h
    cases ht : lc.toothHead with
    | none => simp [leviFetchPackage, ht]
    | some tooth => simp [leviFetchPackage, ht, h]
  · intro h; simp [endstoneFetchPackage, h]
  · intro p hp
    simp only [leviFetchPackage] at hp
    cases ht : lc.toothHead with
    | none => rw [ht] at hp; exact absurd hp (by simp)
    | some tooth =>
      rw [ht] at hp
      simp only at hp
      by_cases hlen : (fetchVersions toIso lc.resolveVersion
          (goproxyTagList lc.goproxyText)).length = 0
      · rw [if_pos hlen] at hp; exact absurd hp (by simp)
      · rw [if_neg hlen] at hp
        rw [← Option.some.inj hp]
        apply normalizePackage_versions_ne_nil
        intro hnil
        exact hlen (by rw [show (fetchVersions toIso lc.resolveVersion
          (goproxyTagList lc.goproxyText)) = [] from hnil]; rfl)
  · intro p hp
    simp only [endstoneFetchPackage] at hp
    by_cases hlen : (endstoneVersions toIso ec).length = 0
    · rw [if_pos hlen] at hp; exact absurd hp (by simp)
    · rw [if_neg hlen] at hp
      rw [← Option.some.inj hp]
      apply normalizePackage_versions_ne_nil
      intro hnil
      exact hlen (by rw [show endstoneVersions toIso ec = [] from hnil]; rfl)

/-- C6 witness: a candidate with no `tooth.json` resolves to `none`,
and the resolved concrete candidates have nonempty version lists. -/
theorem absent_candidate_rules_witness :
    (lcNoTooth.toothHead = none
      ∧ leviFetchPackage (fun s => s) (fun _ _ => "") lcNoTooth = none)
    ∧ pkgLW.versions ≠ [] ∧ pkgEW.versions ≠ [] :=
  ⟨⟨rfl, (absent_candidate_rules (fun s => s) (fun _ _ => "") lcNoTooth
      endstoneCandV).1 rfl⟩,
   (absent_candidate_rules (fun s => s) (fun _ _ => "") lcW
      endstoneCandV).2.2.2.1 pkgLW rfl,
   (absent_candidate_rules (fun s => s) (fun _ _ => "") lcW
      endstoneCandV).2.2.2.2 pkgEW rfl⟩

theorem leviFetch_append (toIso : String → String)
    (avatar : RepoId → Option String → String)
    (a b : List (Except Unit LeviCandidate)) :
    leviFetch toIso avatar (a ++ b)
      = leviFetch toIso avatar a ++ leviFetch toIso avatar b := by
  induction a with
  | nil => simp [leviFetch]
  | cons w rest ih =>
    cases w with
    | error e => simpa only [List.cons_append, leviFetch] using ih
    | ok c =>
      simp only [List.cons_append, leviFetch]
      by_cases h : (c.repo.owner = "LiteLDev" && c.repo.repo = "LeviLamina") = true
      · simp only [if_pos h]
        exact ih
      · simp only [if_neg h]
        cases hfp : leviFetchPackage toIso avatar c with
        | none => exact ih
        | some q => simp [ih]

theorem endstoneFetch_append (toIso : String → String)
    (a b : List (Except Unit EndstoneCandidate)) :
    endstoneFetch toIso (a ++ b)
      = endstoneFetch toIso a ++ endstoneFetch toIso b := by
  induction a with
  | nil => simp [endstoneFetch]
  | cons w rest ih =>
    cases w with
    | error e => simpa only [List.cons_append, endstoneFetch] using ih
    | ok c =>
      simp only [List.cons_append, endstoneFetch]
      cases hfp : endstoneFetchPackage toIso c with
      | none => exact ih
      | some q => simp [ih]

/-- C7: a candidate that throws (`Except.error`) or resolves to a
not-found manifest contributes nothing, and every candidate after it is
still processed and emitted, for both fetchers. -/
theorem fetch_failure_isolation (toIso : String → String)
    (avatar : RepoId → Option String → String)
    (pre post : List (Except Unit LeviCandidate)) (c : LeviCandidate)
    (hc : c.toothHead = none)
    (epre epost : List (Except Unit EndstoneCandidate)) :
    (leviFetch toIso avatar (pre ++ Except.error () :: post)
      = leviFetch toIso avatar pre ++ leviFetch toIso avatar post)
    ∧ (leviFetch toIso avatar (pre ++ Except.ok c :: post)
      = leviFetch toIso avatar pre ++ leviFetch toIso avatar post)
    ∧ (endstoneFetch toIso (epre ++ Except.error () :: epost)
      = endstoneFetch toIso epre ++ endstoneFetch toIso epost) := by
  refine ⟨?_, ?_, ?_⟩
  · rw [leviFetch_append]
    rfl
  · rw [leviFetch_append]
    have hfp : leviFetchPackage toIso avatar c = none := by
      simp [leviFetchPackage, hc]
    have : leviFetch toIso avatar (Except.ok c :: post)
        = leviFetch toIso avatar post := by
      simp only [leviFetch, hfp]
      by_cases h : (c.repo.owner = "LiteLDev" && c.repo.repo = "LeviLamina") = true
      · simp [h]
      · simp [h]
    rw [this]
  · rw [endstoneFetch_append]
    rfl

/-- C7 witness: a throwing candidate and a manifest-less candidate
between two good candidates. -/
theorem fetch_failure_isolation_witness :
    (leviFetch (fun s => s) (fun _ _ => "")
        ([Except.ok lcW] ++ Except.error () :: [Except.ok lcW])
      = leviFetch (fun s => s) (fun _ _ => "") [Except.ok lcW]
        ++ leviFetch (fun s => s) (fun _ _ => "") [Except.ok lcW])
    ∧ (leviFetch (fun s => s) (fun _ _ => "")
        ([Except.ok lcW] ++ Except.ok lcNoTooth :: [Except.ok lcW])
      = leviFetch (fun s => s) (fun _ _ => "") [Except.ok lcW]
        ++ leviFetch (fun s => s) (fun _ _ => "") [Except.ok lcW])
    ∧ (endstoneFetch (fun s => s)
        ([Except.ok endstoneCandV] ++ Except.error () :: [Except.ok endstoneCandV])
      = endstoneFetch (fun s => s) [Except.ok endstoneCandV]
        ++ endstoneFetch (fun s => s) [Except.ok endstoneCandV]) :=
  fetch_failure_isolation (fun s => s) (fun _ _ => "")
    [Except.ok lcW] [Except.ok lcW] lcNoTooth rfl
    [Except.ok endstoneCandV] [Except.ok endstoneCandV]

/-- Whatever `leviFetchPackage` emits carries the candidate's own
`github.com/<owner>/<repo>` identifier. -/
theorem leviFetchPackage_identifier (toIso : String → String)
    (avatar : RepoId → Option String → String) (c : LeviCandidate)
    (q : Package) (h : leviFetchPackage toIso avatar c = some q) :
    q.identifier = "github.com/" ++ c.repo.owner ++ "/" ++ c.repo.repo := by
  simp only [leviFetchPackage] at h
  cases ht : c.toothHead with
  | none => rw [ht] at h; exact absurd h (by simp)
  | some tooth =>
    rw [ht] at h
    simp only at h
    by_cases hlen : (fetchVersions toIso c.resolveVersion
        (goproxyTagList c.goproxyText)).length = 0
    · rw [if_pos hlen] at h; exact absurd h (by simp)
    · rw [if_neg hlen] at h
      rw [← Option.some.inj h]
      rfl

/-- Distinct `(owner, repo)` pairs cannot produce the LeviLamina
platform identifier: the identifier contains exactly one `/` after the
host prefix, so the split is unique. -/
theorem identifier_ne_levilamina (o r : String)
    (h : ¬ (o = "LiteLDev" ∧ r = "LeviLamina")) :
    "github.com/" ++ o ++ "/" ++ r ≠ "github.com/LiteLDev/LeviLamina" := by
  intro heq
  have hdata : ("github.com/" ++ o ++ "/" ++ r).data
      = ("github.com/LiteLDev/LeviLamina").data := by rw [heq]
  have hlhs : ("github.com/" ++ o ++ "/" ++ r).data
      = "github.com/".data ++ (o.data ++ '/' :: r.data) := by
    simp [String.data_append]
  have hrhs : ("github.com/LiteLDev/LeviLamina").data
      = "github.com/".data ++ ("LiteLDev".data ++ '/' :: "LeviLamina".data) := by
    decide
  rw [hlhs, hrhs] at hdata
  have hcanc := List.append_cancel_left hdata
  have hcnt1 : List.count '/' ("LiteLDev".data ++ '/' :: "LeviLamina".data) = 1 := by
    decide
  rw [← hcanc] at hcnt1
  have hsplit : List.count '/' (o.data ++ '/' :: r.data)
      = List.count '/' o.data + (List.count '/' r.data + 1) := by
    rw [List.count_append, List.count_cons_self]
  have hoz : List.count '/' o.data = 0 := by omega
  have hno : '/' ∉ o.data := List.count_eq_zero.mp hoz
  have hnu : '/' ∉ "LiteLDev".data := by decide
  obtain ⟨ho, hr⟩ := append_sep_inj '/' o.data "LiteLDev".data r.data
    "LeviLamina".data hno hnu hcanc
  exact h ⟨stringDataInj _ _ ho, stringDataInj _ _ hr⟩

/-- C9: no package emitted by the LeviLamina fetcher carries the
platform repository's identifier, the platform repository being skipped
before resolution. -/
theorem levilamina_self_skipped (toIso : String → String)
    (avatar : RepoId → Option String → String)
    (world : List (Except Unit LeviCandidate)) :
    ∀ p ∈ leviFetch toIso avatar world,
      p.identifier ≠ "github.com/LiteLDev/LeviLamina" := by
  induction world with
  | nil => simp [leviFetch]
  | cons w rest ih =>
    cases w with
    | error e => simpa only [leviFetch] using ih
    | ok c =>
      intro p hp
      simp only [leviFetch] at hp
      by_cases h : (c.repo.owner = "LiteLDev" && c.repo.repo = "LeviLamina") = true
      · rw [if_pos h] at hp
        exact ih p hp
      · rw [if_neg h] at hp
        cases hfp : leviFetchPackage toIso avatar c with
        | none => rw [hfp] at hp; exact ih p hp
        | some q =>
          rw [hfp] at hp
          rcases List.mem_cons.mp hp with hp | hp
          · subst hp
            rw [leviFetchPackage_identifier toIso avatar c _ hfp]
            exact identifier_ne_levilamina c.repo.owner c.repo.repo
              (fun hand => h (by simp [hand.1, hand.2]))
          · exact ih p hp

/-- C9 witness: a world whose discovery returns the platform repository
itself plus one ordinary candidate. -/
theorem levilamina_self_skipped_witness :
    pkgLW ∈ leviFetch (fun s => s) (fun _ _ => "")
        [Except.ok lcLevi, Except.ok lcW]
    ∧ pkgLW.identifier ≠ "github.com/LiteLDev/LeviLamina" := by
  have hmem : pkgLW ∈ leviFetch (fun s => s) (fun _ _ => "")
      [Except.ok lcLevi, Except.ok lcW] := by decide
  exact ⟨hmem,
    levilamina_self_skipped (fun s => s) (fun _ _ => "")
      [Except.ok lcLevi, Except.ok lcW] pkgLW hmem⟩

/-- Every string in the spec's literal `github.com/<owner>/<repo>`
format passes the code's regular expression. -/
theorem specFormat_matches (s : String) (hs : toothPathSpecFormat s = true) :
    toothPathMatch s ≠ none := by
  unfold toothPathSpecFormat at hs
  rw [Bool.and_eq_true] at hs
  obtain ⟨hpre, htail⟩ := hs
  rw [listIsPrefixOf_iff] at hpre
  obtain ⟨rest, hrest⟩ := hpre
  have heq : s.data
      = 'g' :: 'i' :: 't' :: 'h' :: 'u' :: 'b' :: '.' :: 'c' :: 'o' :: 'm' :: '/' :: rest := by
    rw [← hrest]
    rfl
  have hdrop : s.data.drop 11 = rest := by rw [heq]; rfl
  rw [hdrop] at htail
  have hm : toothPathMatch s
      = if isLineTerm '.' then none else toothPathTail rest := by
    unfold toothPathMatch
    rw [heq]
    rfl
  rw [hm, if_neg (by decide)]
  intro hnone
  rw [hnone] at htail
  simp [Option.isSome] at htail

/-- C8 counterexample: `githubXcom/octo/lib` is not of the
`github.com/<owner>/<repo>` identifier format, yet the handler serves
it with a 200 reply and performs the upstream fetches, because the
unescaped dot in `TOOTH_PATH_REGEXP` matches the `X`. -/
theorem read_api_validation_counterexample :
    toothPathSpecFormat "githubXcom/octo/lib" = false
    ∧ readHandler (fun _ => true) goodWorld reqOddHost
      = (HttpReply.dataReply
          { tooth := "github.com/octo/lib", version := "1.0.0", name := "lib",
            description := "", author := "octo",
            available_versions := ["1.0.0"], readme := none, tags := [],
            dependencies := [] }, true) := by
  constructor
  · decide
  · rfl

/-- C8 amended: a tooth path rejected by the code's regular expression
(whose unescaped dot accepts any non-line-terminator character in
place of the literal dot), or an invalid version string, yields a 400
reply with the corresponding message and starts no upstream fetch;
every path in the spec's literal format is accepted by the regular
expression. -/
theorem read_api_validation (isValidVersionStr : String → Bool)
    (w : ReadWorld) (req : ReadRequest) :
    (toothPathMatch req.tooth = none →
      readHandler isValidVersionStr w req
        = (HttpReply.errorReply 400 "Invalid parameter - tooth.", false))
    ∧ (toothPathMatch req.tooth ≠ none →
        isValidVersionStr req.version = false →
        readHandler isValidVersionStr w req
          = (HttpReply.errorReply 400 "Invalid parameter - version.", false))
    ∧ (toothPathSpecFormat req.tooth = true → toothPathMatch req.tooth ≠ none) := by
  refine ⟨?_, ?_, ?_⟩
  · intro h
    simp [readHandler, h]
  · intro h hv
    cases hm : toothPathMatch req.tooth with
    | none => exact absurd hm h
    | some pr => simp [readHandler, hm, hv]
  · exact specFormat_matches req.tooth

/-- C8 amended witness: a path failing the regular expression, an
invalid version, and a spec-format path that passes. -/
theorem read_api_validation_witness :
    (toothPathMatch "not-a-tooth" = none
      ∧ readHandler (fun _ => true) goodWorld
          { tooth := "not-a-tooth", version := "1.0.0", languageCodes := [] }
        = (HttpReply.errorReply 400 "Invalid parameter - tooth.", false))
    ∧ (readHandler (fun _ => false) goodWorld
          { tooth := "github.com/octo/lib", version := "nope", languageCodes := [] }
        = (HttpReply.errorReply 400 "Invalid parameter - version.", false))
    ∧ (toothPathSpecFormat "github.com/octo/lib" = true
      ∧ toothPathMatch "github.com/octo/lib" ≠ none) :=
  ⟨⟨by decide,
    (read_api_validation (fun _ => true) goodWorld
      { tooth := "not-a-tooth", version := "1.0.0", languageCodes := [] }).1
      (by decide)⟩,
   (read_api_validation (fun _ => false) goodWorld
      { tooth := "github.com/octo/lib", version := "nope", languageCodes := [] }).2.1
      (by decide) rfl,
   ⟨by decide,
    (read_api_validation (fun _ => true) goodWorld
      { tooth := "github.com/octo/lib", version := "1.0.0", languageCodes := [] }).2.2
      (by decide)⟩⟩

theorem firstSome_all_none (l : List (Option String))
    (h : ∀ x ∈ l, x = none) : firstSome l = none := by
  induction l with
  | nil => rfl
  | cons x rest ih =>
    cases hx : x with
    | none =>
      simp only [firstSome]
      exact ih (fun y hy => h y (List.mem_cons_of_mem _ hy))
    | some s =>
      exact absurd (h x (List.mem_cons_self x rest)) (by simp [hx])

/-- C10: on the success path the `readme` field is the first non-null
result of trying `README.<lang>.md` for each distinct accepted language
in client preference order and then the default `README.md`; when all
those fetches fail the `readme` field is null and the reply is still a
success. -/
theorem readme_selection (isValidVersionStr : String → Bool)
    (w : ReadWorld) (req : ReadRequest) (pr : String × String)
    (t : ToothMeta) (vs : List String)
    (h1 : toothPathMatch req.tooth = some pr)
    (h2 : isValidVersionStr req.version = true)
    (h3 : w.toothMeta = Except.ok t)
    (h4 : w.versionList = Except.ok vs) :
    ((readHandler isValidVersionStr w req).1 = HttpReply.dataReply
      { tooth := t.toothPath, version := t.version, name := t.name,
        description := t.description, author := t.author,
        available_versions := vs,
        readme := firstSome
          (((dedupTags req.languageCodes []).map
              (fun lang => w.readmeFor (some lang)))
            ++ [w.readmeFor none]),
        tags := t.tags, dependencies := t.dependencies })
    ∧ ((∀ lang ∈ dedupTags req.languageCodes [], w.readmeFor (some lang) = none) →
        w.readmeFor none = none →
        (readHandler isValidVersionStr w req).1 = HttpReply.dataReply
          { tooth := t.toothPath, version := t.version, name := t.name,
            description := t.description, author := t.author,
            available_versions := vs, readme := none,
            tags := t.tags, dependencies := t.dependencies }) := by
  have hmain : (readHandler isValidVersionStr w req).1 = HttpReply.dataReply
      { tooth := t.toothPath, version := t.version, name := t.name,
        description := t.description, author := t.author,
        available_versions := vs,
        readme := fetchReadme w.readmeFor (dedupTags req.languageCodes []),
        tags := t.tags, dependencies := t.dependencies } := by
    simp [readHandler, h1, h2, h3, h4]
  refine ⟨by rw [hmain]; rfl, ?_⟩
  intro hall hdef
  rw [hmain]
  have : fetchReadme w.readmeFor (dedupTags req.languageCodes []) = none := by
    unfold fetchReadme
    apply firstSome_all_none
    intro x hx
    rcases List.mem_append.mp hx with hx | hx
    · rcases List.mem_map.mp hx with ⟨lang, hlang, hmap⟩
      rw [← hmap]
      exact hall lang hlang
    · rcases List.mem_singleton.mp hx with hx
      rw [hx]
      exact hdef
  rw [this]

/-- C10 witness: the concrete request against `readmeWorld`. -/
theorem readme_selection_witness :
    (readHandler (fun _ => true) readmeWorld readmeReq).1 = HttpReply.dataReply
      { tooth := "github.com/octo/lib", version := "1.0.0", name := "lib",
        description := "", author := "octo",
        available_versions := ["1.0.0"],
        readme := firstSome
          (((dedupTags readmeReq.languageCodes []).map
              (fun lang => readmeWorld.readmeFor (some lang)))
            ++ [readmeWorld.readmeFor none]),
        tags := [], dependencies := [] } :=
  (readme_selection (fun _ => true) readmeWorld readmeReq ("octo", "lib")
    { toothPath := "github.com/octo/lib", version := "1.0.0", name := "lib",
      description := "", author := "octo", tags := [], dependencies := [] }
    ["1.0.0"] (by decide) rfl rfl rfl).1
